import Mathlib

/-!
# Verification of the GWSpace anisotropic SGWB synthesis pipeline

Shallow embedding of the core of `gwspace/SGWB.py` (class `SGWB`) together with
`csgwsim/ORF.py` (`polarization_tensor`), and proofs of the spec's claims about
them.

Conventions of the embedding:

* numpy float/complex arithmetic is modelled over `ℝ`/`ℂ`;
* the healpy half-index spherical-harmonic bookkeeping (`Alm.getsize`,
  `Alm.getidx`, `Alm.getlm`) is embedded by its documented index bijection
  `idx = m*(2*lmax+1-m)/2 + l`, `m ≤ l ≤ lmax`;
* Python `raise ValueError` is modelled by `Except String`;
* the sympy Clebsch-Gordan coefficient `CG(...).doit()` is embedded by Racah's
  closed formula (the formula sympy's `wigner_3j`/`CG` evaluate), with the
  explicit zero guard sympy applies to out-of-range configurations;
* collaborators that the spec declares external (the orbit provider and the
  single-link/TDI transfer functions feeding `TQresponse_plus/cross`) enter as
  function parameters;
* repository code not included under `src/` (`gwspace/wrap.py`'s
  `frequency_noise_from_psd`, healpy's `alm2map` synthesis) is modelled from
  the spec; those definitions carry a `Modelled from the spec:` doc comment.
-/

open Finset

/-! ## healpy `Alm` index bookkeeping -/

namespace Alm

/-- healpy `Alm.getsize(lmax)` (with `mmax = lmax`):
`mmax*(2*lmax+1-mmax)//2 + lmax + 1`. -/
def getsize (lmax : ℕ) : ℕ := lmax * (2 * lmax + 1 - lmax) / 2 + lmax + 1

/-- healpy `Alm.getidx(lmax, l, m) = m*(2*lmax+1-m)//2 + l`. -/
def getidx (lmax l m : ℕ) : ℕ := m * (2 * lmax + 1 - m) / 2 + l

/-- Fuel-indexed search for the `m`-block containing a flat healpy index; block
`m` holds the `lmax - m + 1` indices of `(l, m)`, `m ≤ l ≤ lmax`. -/
def getlmGo (lmax : ℕ) : ℕ → ℕ → ℕ → ℕ × ℕ
  | 0, m, i => (m + i, m)
  | fuel + 1, m, i =>
    if i ≤ lmax - m then (m + i, m)
    else getlmGo lmax fuel (m + 1) (i - (lmax - m + 1))

/-- healpy `Alm.getlm(lmax, i)`: the inverse of `getidx` on valid indices,
returned as `(l, m)`. -/
def getlm (lmax i : ℕ) : ℕ × ℕ := getlmGo lmax (lmax + 1) 0 i

end Alm

/-! ## `SGWB.idx_2_alm` (SGWB.py lines 150-165) -/

/-- `SGWB.idx_2_alm(lmax, ii)`: index → `(l, m)` decode that also covers the
mirrored negative-`m` region, with the two `ValueError` branches of the
source. -/
def idx_2_alm (lmax ii : ℕ) : Except String (ℕ × ℤ) :=
  if 2 * Alm.getsize lmax - lmax - 1 ≤ ii then
    .error "Index larger than acceptable"
  else if ii < Alm.getsize lmax then
    .ok ((Alm.getlm lmax ii).1, ((Alm.getlm lmax ii).2 : ℤ))
  else if (Alm.getlm lmax (ii - Alm.getsize lmax + lmax + 1)).2 = 0 then
    .error "Something wrong with ind -> (l, m) conversion"
  else
    .ok ((Alm.getlm lmax (ii - Alm.getsize lmax + lmax + 1)).1,
         -((Alm.getlm lmax (ii - Alm.getsize lmax + lmax + 1)).2 : ℤ))

/-! ## Clebsch-Gordan coefficients (sympy `CG(...).doit().evalf()`)

Racah's closed formula for `⟨j1 m1 j2 m2 | J M⟩`, the formula sympy's
`wigner_3j`-based `CG` evaluates, including sympy's explicit guard that any
out-of-range configuration (triangle inequality violated, `M ≠ m1+m2`,
`|m| > j`) yields exactly `0` rather than an error. All arguments in the
repository are integers, so the embedding takes `ℤ` arguments. -/

noncomputable section

/-- `facZ n` is `n!` for `n ≥ 0` and `0` for negative `n` (a factor `0` kills
terms outside the admissible range, as in sympy's symbolic formula). -/
def facZ (n : ℤ) : ℝ := if 0 ≤ n then (n.toNat.factorial : ℝ) else 0

/-- `invFact n` is `1/n!` for `n ≥ 0` and `0` for negative `n` (the reciprocal
of a factorial at a Gamma-function pole vanishes). -/
def invFact (n : ℤ) : ℝ := if 0 ≤ n then ((n.toNat.factorial : ℝ))⁻¹ else 0

/-- The `k`-th term of the alternating sum in Racah's formula. -/
def cgSummand (j1 m1 j2 m2 J : ℤ) (k : ℕ) : ℝ :=
  (-1 : ℝ) ^ k * invFact (k : ℤ) * invFact (j1 + j2 - J - k) *
    invFact (j1 - m1 - k) * invFact (j2 + m2 - k) *
    invFact (J - j2 + m1 + k) * invFact (J - j1 - m2 + k)

/-- The alternating sum in Racah's formula; terms with `k > j1+j2-J` vanish,
so the sum is cut at `j1+j2-J`. -/
def cgSum (j1 m1 j2 m2 J : ℤ) : ℝ :=
  ∑ k ∈ Finset.range ((j1 + j2 - J).toNat + 1), cgSummand j1 m1 j2 m2 J k

/-- The square-root normalisation factor of Racah's formula. -/
def cgNorm (j1 m1 j2 m2 J M : ℤ) : ℝ :=
  Real.sqrt ((2 * (J : ℝ) + 1) * facZ (j1 + j2 - J) * facZ (j1 - j2 + J) *
    facZ (-j1 + j2 + J) / facZ (j1 + j2 + J + 1) *
    (facZ (j1 + m1) * facZ (j1 - m1) * facZ (j2 + m2) * facZ (j2 - m2) *
      facZ (J + M) * facZ (J - M)))

/-- The Clebsch-Gordan coefficient `⟨j1 m1 j2 m2 | J M⟩`, with sympy's zero
guard for disallowed configurations. -/
def cg (j1 m1 j2 m2 J M : ℤ) : ℝ :=
  if M = m1 + m2 ∧ |j1 - j2| ≤ J ∧ J ≤ j1 + j2 ∧ |m1| ≤ j1 ∧ |m2| ≤ j2 ∧
      |M| ≤ J then
    cgNorm j1 m1 j2 m2 J M * cgSum j1 m1 j2 m2 J
  else 0

/-! ## `SGWB.calc_beta` (SGWB.py lines 102-118) -/

/-- One entry of the coupling tensor `beta_vals[ii, jj, kk]` of
`SGWB.calc_beta`: decode `(l1,m1)`, `(l2,m2)` from the expanded `blm` index
range at `blmax` and `(L,M)` from the power index range at `almax = 2*blmax`,
then `sqrt((2l1+1)(2l2+1)/(4π(2L+1))) * CG(l1,0,l2,0,L,0) *
CG(l1,m1,l2,m2,L,M)`. The unreachable decode-failure branch returns 0. -/
def beta_val (blmax ii jj kk : ℕ) : ℝ :=
  match idx_2_alm blmax jj, idx_2_alm blmax kk, idx_2_alm (2 * blmax) ii with
  | .ok (l1, m1), .ok (l2, m2), .ok (L, M) =>
    Real.sqrt ((2 * (l1 : ℝ) + 1) * (2 * (l2 : ℝ) + 1) /
        ((4 * Real.pi) * (2 * (L : ℝ) + 1))) *
      cg (l1 : ℤ) 0 (l2 : ℤ) 0 (L : ℤ) 0 *
      cg (l1 : ℤ) m1 (l2 : ℤ) m2 (L : ℤ) M
  | _, _, _ => 0

/-- The spec's selection-rule condition on a decoded triple of `calc_beta`
indices: `L < |l1-l2|`, or `L > l1+l2`, or `M ≠ m1+m2`, or `l1+l2+L` odd
(`false` if any decode fails). -/
def selectionViolated (blmax ii jj kk : ℕ) : Bool :=
  match idx_2_alm blmax jj, idx_2_alm blmax kk, idx_2_alm (2 * blmax) ii with
  | .ok (l1, m1), .ok (l2, m2), .ok (L, M) =>
    decide ((L : ℤ) < |(l1 : ℤ) - (l2 : ℤ)|) ||
    decide ((l1 : ℤ) + (l2 : ℤ) < (L : ℤ)) ||
    decide (M ≠ m1 + m2) ||
    decide ((l1 + l2 + L) % 2 = 1)
  | _, _, _ => false

/-! ## `SGWB.calc_blm_full` and `SGWB.blm_2_alm` (SGWB.py lines 120-148) -/

/-- `SGWB.calc_blm_full(blms_in)`: expand half-indexed coefficients to the
full signed-`m` array of length `2*getsize(blmax) - blmax - 1`, using the
reality relation `(-1)^m * conj` on the negative-`m` mirror. The decode on
index `jj` is `self.bl_idx[jj], self.bm_idx[jj]`, i.e. `idx_2_alm(blmax, jj)`
as precomputed in `__init__`. -/
def calc_blm_full (blmax : ℕ) (blms_in : List ℂ) : List ℂ :=
  (List.range (2 * Alm.getsize blmax - blmax - 1)).map fun jj =>
    match idx_2_alm blmax jj with
    | .ok (l, m) =>
      if 0 ≤ m then blms_in.getD (Alm.getidx blmax l m.toNat) 0
      else (-1 : ℂ) ^ (-m).toNat *
        (starRingEnd ℂ) (blms_in.getD (Alm.getidx blmax l (-m).toNat) 0)
    | .error _ => 0

/-- The angular-power contraction `alm_vals = einsum('ijk,j,k', beta_vals,
blm_full, blm_full)` at power index `ii`. -/
def alms_of (blmax : ℕ) (blms_in : List ℂ) (ii : ℕ) : ℂ :=
  ∑ j ∈ Finset.range (2 * Alm.getsize blmax - blmax - 1),
    ∑ k ∈ Finset.range (2 * Alm.getsize blmax - blmax - 1),
      ((beta_val blmax ii j k : ℝ) : ℂ) *
        (calc_blm_full blmax blms_in).getD j 0 *
        (calc_blm_full blmax blms_in).getD k 0

/-- `SGWB.blm_2_alm(blms_in)`: raise `ValueError` if the input size does not
match `Alm.getsize(blmax)`, else contract the expanded coefficients through
the coupling tensor into the `(2*blmax+1)^2` angular-power values. -/
def blm_2_alm (blmax : ℕ) (blms_in : List ℂ) : Except String (List ℂ) :=
  if blms_in.length ≠ Alm.getsize blmax then
    .error "The size of the input blm array does not match the size defined by lmax "
  else
    .ok ((List.range ((2 * blmax + 1) ^ 2)).map (alms_of blmax blms_in))

/-! ## Stochastic spectrum (SGWB.py lines 70-75)

`frequency_noise_from_psd` lives in `gwspace/wrap.py`, which is not part of
the sources provided; it is modelled from the spec below. -/

/-- `np.linspace(fmin, fmax, fn)` at index `j` (for `fn = 1` numpy returns
`[fmin]`, matching the `ℝ` convention `x / 0 = 0`). -/
def frange (fmin fmax : ℝ) (fn : ℕ) (j : ℕ) : ℝ :=
  fmin + (fmax - fmin) * j / ((fn : ℝ) - 1)

/-- `Omegaf = omega0*(frange/fref)**alpha` (SGWB.py line 72). -/
def Omegaf (omega0 alpha fref f : ℝ) : ℝ := omega0 * (f / fref) ^ alpha

/-- `Sgw = Omegaf*(3/(4*frange**3))*(H0/np.pi)**2` (SGWB.py line 73). -/
def Sgw (omega0 alpha fref H0 f : ℝ) : ℝ :=
  Omegaf omega0 alpha fref f * (3 / (4 * f ^ 3)) * (H0 / Real.pi) ^ 2

/-- One step of a 64-bit linear congruential generator. -/
def lcgStep (x : ℕ) : ℕ := (6364136223846793005 * x + 1442695040888963407) % 2 ^ 64

/-- The deterministic pseudorandom stream grown from a seed. -/
def lcgStream (seed : ℕ) : ℕ → ℕ
  | 0 => seed % 2 ^ 64
  | n + 1 => lcgStep (lcgStream seed n)

/-- The `n`-th deterministic draw in `[0, 1)` of the seeded stream. -/
def unifDraw (seed n : ℕ) : ℝ := (lcgStream seed (n + 1) : ℝ) / (2 ^ 64 : ℝ)

/-- Modelled from the spec: `frequency_noise_from_psd(psd, delta_f, seed)` of
`gwspace/wrap.py` is not under `src/`. Per spec §4.5 it produces a complex
frequency-domain realization of the PSD from a deterministic seeded
pseudorandom source; the exact real/imaginary draw-and-scale convention is an
implementation choice the spec leaves open (§9). It is modelled as an
amplitude `sqrt(psd/(4*delta_f))` scaling a pair of deterministic seeded
draws, a pure function of `(psd, delta_f, seed)`. -/
def frequency_noise_from_psd (psd : ℕ → ℝ) (delta_f : ℝ) (seed : ℕ) (i : ℕ) : ℂ :=
  (Real.sqrt (psd i / (4 * delta_f)) : ℝ) *
    (((unifDraw seed (2 * i) - 1 / 2 : ℝ) : ℂ) +
      Complex.I * ((unifDraw seed (2 * i + 1) - 1 / 2 : ℝ) : ℂ))

/-- `Sgw_Gu = frequency_noise_from_psd(Sgw, 1/Ttot, seed=123)` (SGWB.py line
74), on the frequency grid `fr`. -/
def Sgw_Gu (omega0 alpha fref H0 Ttot : ℝ) (fr : ℕ → ℝ) : ℕ → ℂ :=
  frequency_noise_from_psd (fun j => Sgw omega0 alpha fref H0 (fr j)) (1 / Ttot) 123

/-! ## Response tensor and signal projection (SGWB.py lines 75, 96-100)

The per-channel response arrays `TQresponse_plus/cross` are produced by the
external transfer-function collaborators (`response.trans_y_slr_fd`,
`response.get_XYZ_fd`, orbit provider); they enter as parameters `Rp Rc :
Fin 3 → ℕ → ℕ → ℕ → ℂ` indexed by (channel, frequency, time, pixel). -/

/-- `TQ_ORF = (1/(8π))*(einsum("mjkl,njkl->mnjkl", conj(Rp), Rp) +
einsum(..., conj(Rc), Rc)) / (2π*frange*L_T)^2` (SGWB.py lines 96-98). -/
def TQ_ORF (fr : ℕ → ℝ) (LT : ℝ) (Rp Rc : Fin 3 → ℕ → ℕ → ℕ → ℂ)
    (m n : Fin 3) (j k p : ℕ) : ℂ :=
  ((1 / (8 * Real.pi) : ℝ) : ℂ) *
    ((starRingEnd ℂ) (Rp m j k p) * Rp n j k p +
      (starRingEnd ℂ) (Rc m j k p) * Rc n j k p) /
    (((2 * Real.pi * fr j * LT : ℝ) : ℂ)) ^ 2

/-- `signal_in_Gu = einsum('i,j->ij', (2/Ttot)*Sgw_Gu*conj(Sgw_Gu), skymap)`
(SGWB.py line 75), at frequency `i` and pixel `j`. -/
def signal_in_Gu (Ttot : ℝ) (SgwGu : ℕ → ℂ) (skymap : ℕ → ℝ) (i j : ℕ) : ℂ :=
  ((2 / Ttot : ℝ) : ℂ) * SgwGu i * (starRingEnd ℂ) (SgwGu i) *
    ((skymap j : ℝ) : ℂ)

/-- `signal_SGWB = (4π)*sum(signal_in_Gu[None,None,:,None,:]*TQ_ORF, axis=4)
/npix` (SGWB.py lines 99-100). -/
def signal_SGWB (npix : ℕ) (Ttot : ℝ) (SgwGu : ℕ → ℂ) (skymap : ℕ → ℝ)
    (fr : ℕ → ℝ) (LT : ℝ) (Rp Rc : Fin 3 → ℕ → ℕ → ℕ → ℂ)
    (m n : Fin 3) (f t : ℕ) : ℂ :=
  ((4 * Real.pi : ℝ) : ℂ) *
    (∑ p ∈ Finset.range npix,
      signal_in_Gu Ttot SgwGu skymap f p * TQ_ORF fr LT Rp Rc m n f t p) /
    (npix : ℂ)

/-! ## Polarization tensors (SGWB.py lines 81-82, 167-175; ORF.py 14-23) -/

/-- `SGWB.vec_u` at one pixel with azimuth `phi`:
`[-sin(phi), cos(phi), 0]`. -/
def vec_u (phi : ℝ) : Fin 3 → ℝ := fun i =>
  if i = 0 then -Real.sin phi else if i = 1 then Real.cos phi else 0

/-- `SGWB.vec_v` at one pixel with colatitude `theta`, azimuth `phi`:
`[cos(phi)cos(theta), cos(theta)sin(phi), -sin(theta)]`. -/
def vec_v (theta phi : ℝ) : Fin 3 → ℝ := fun i =>
  if i = 0 then Real.cos phi * Real.cos theta
  else if i = 1 then Real.cos theta * Real.sin phi
  else -Real.sin theta

/-- `SGWB.__init__` line 81: `e_plus = einsum("ik,jk->ijk", vec_v, vec_v) -
einsum("ik,jk->ijk", vec_u, vec_u)`, at one pixel. -/
def e_plus (theta phi : ℝ) (i j : Fin 3) : ℝ :=
  vec_v theta phi i * vec_v theta phi j - vec_u phi i * vec_u phi j

/-- `SGWB.__init__` line 82: `e_cross = einsum("ik,jk->ijk", vec_u, vec_v) +
einsum("ik,jk->ijk", vec_v, vec_u)`, at one pixel. -/
def e_cross (theta phi : ℝ) (i j : Fin 3) : ℝ :=
  vec_u phi i * vec_v theta phi j + vec_v theta phi i * vec_u phi j

/-- `polarization_tensor(u, v)` of `csgwsim/ORF.py` lines 14-23:
`e_p[i,j] = u[i]*u[j] - v[i]*v[j]`, `e_c[i,j] = u[i]*v[j] + v[i]*u[j]`. -/
def polarization_tensor (u v : Fin 3 → ℝ) :
    (Fin 3 → Fin 3 → ℝ) × (Fin 3 → Fin 3 → ℝ) :=
  (fun i j => u i * u j - v i * v j, fun i j => u i * v j + v i * u j)

/-! ## Sky-map synthesis for the monopole case (SGWB.py lines 64-69) -/

/-- Modelled from the spec: healpy's `hp.alm2map` is an external collaborator
(spec §6 `Pixelization.inverseTransform`); per the spec it performs the
inverse spherical-harmonic transform `map(p) = Σ_{L,M} alm[L,M]·Y_{LM}(p)`.
For `almax = 0` only the monopole contributes and `Y_00 = 1/(2√π)`, so the
map is the pixel-independent constant `alm[0] * Y_00`. -/
def alm2map_monopole (a0 : ℂ) (_p : ℕ) : ℂ :=
  a0 * ((1 / (2 * Real.sqrt Real.pi) : ℝ) : ℂ)

/-- SGWB.py lines 64-69 specialised to `blmax = 0`, `blm_vals = [b]`:
`alms_inj = blm_2_alm(blms)`, `alms_inj2 = alms_inj/(alms_inj[0]*sqrt(4π))`,
`skymap_inj = alm2map(alms_inj2[:getsize(0)], nside)`. The decode-failure
branch (unreachable for a size-1 input) returns 0. -/
def skymap_monopole (b : ℂ) (p : ℕ) : ℂ :=
  match blm_2_alm 0 [b] with
  | .ok alms =>
    alm2map_monopole
      (alms.getD 0 0 / (alms.getD 0 0 * ((Real.sqrt (4 * Real.pi) : ℝ) : ℂ))) p
  | .error _ => 0

end

/-! ### Index arithmetic lemmas -/

theorem Alm.getsize_ge (lmax : ℕ) : lmax + 1 ≤ Alm.getsize lmax := by
  unfold Alm.getsize; omega

theorem Alm.getidx_m_zero (lmax l : ℕ) : Alm.getidx lmax l 0 = l := by
  simp [Alm.getidx]

/-- The expanded-coefficient count `2*getsize(lmax) - lmax - 1` equals
`(lmax+1)^2`, the number of all pairs `(l, m)`, `|m| ≤ l ≤ lmax`. -/
theorem Alm.two_getsize_sub (lmax : ℕ) :
    2 * Alm.getsize lmax - lmax - 1 = (lmax + 1) ^ 2 := by
  obtain ⟨c, hc⟩ := Nat.even_mul_succ_self lmax
  have h1 : lmax * (2 * lmax + 1 - lmax) = c + c := by
    rw [show 2 * lmax + 1 - lmax = lmax + 1 by omega]; exact hc
  have h2 : (lmax + 1) ^ 2 = lmax * (lmax + 1) + lmax + 1 := by ring
  rw [hc] at h2
  unfold Alm.getsize
  rw [h1]
  omega

/-- Start-of-block step: the flat index of `(m+1, m+1)` is one past the end of
block `m`. -/
theorem Alm.getidx_diag_succ (lmax m : ℕ) (h : m < lmax) :
    Alm.getidx lmax (m + 1) (m + 1) =
      Alm.getidx lmax m m + (lmax - m + 1) := by
  obtain ⟨d, hd⟩ : ∃ d, lmax = m + d + 1 := ⟨lmax - m - 1, by omega⟩
  subst hd
  unfold Alm.getidx
  rw [show 2 * (m + d + 1) + 1 - m = m + 2 * d + 3 by omega,
      show 2 * (m + d + 1) + 1 - (m + 1) = m + 2 * d + 2 by omega,
      show (m + 1) * (m + 2 * d + 2) = m * (m + 2 * d + 3) + (2 * d + 2) by ring]
  generalize m * (m + 2 * d + 3) = a
  omega

theorem Alm.getlmGo_spec (lmax : ℕ) :
    ∀ (fuel m i : ℕ), m ≤ lmax → lmax + 1 ≤ fuel + m →
      i + Alm.getidx lmax m m < Alm.getsize lmax →
      (Alm.getlmGo lmax fuel m i).2 ≤ (Alm.getlmGo lmax fuel m i).1 ∧
      (Alm.getlmGo lmax fuel m i).1 ≤ lmax ∧
      Alm.getidx lmax (Alm.getlmGo lmax fuel m i).1
        (Alm.getlmGo lmax fuel m i).2 = i + Alm.getidx lmax m m := by
  intro fuel
  induction fuel with
  | zero => intro m i h1 h2 _; omega
  | succ fuel ih =>
    intro m i h1 h2 h3
    by_cases hbr : i ≤ lmax - m
    · simp only [Alm.getlmGo, if_pos hbr]
      refine ⟨Nat.le_add_right m i, by omega, ?_⟩
      unfold Alm.getidx
      generalize m * (2 * lmax + 1 - m) / 2 = q
      omega
    · have hm : m < lmax := by
        by_contra hc
        have hmeq : m = lmax := by omega
        subst hmeq
        unfold Alm.getidx Alm.getsize at h3
        generalize m * (2 * m + 1 - m) / 2 = q at h3
        omega
      have hstep := Alm.getidx_diag_succ lmax m hm
      have hIH := ih (m + 1) (i - (lmax - m + 1)) (by omega) (by omega)
        (by omega)
      simp only [Alm.getlmGo, if_neg hbr]
      refine ⟨hIH.1, hIH.2.1, ?_⟩
      rw [hIH.2.2]
      omega

/-- Round trip: on a valid flat index, `getlm` returns a valid `(l, m)` pair
with `getidx` inverse to it. -/
theorem Alm.getlm_spec (lmax i : ℕ) (h : i < Alm.getsize lmax) :
    (Alm.getlm lmax i).2 ≤ (Alm.getlm lmax i).1 ∧
    (Alm.getlm lmax i).1 ≤ lmax ∧
    Alm.getidx lmax (Alm.getlm lmax i).1 (Alm.getlm lmax i).2 = i := by
  have h0 : Alm.getidx lmax 0 0 = 0 := Alm.getidx_m_zero lmax 0
  have := Alm.getlmGo_spec lmax (lmax + 1) 0 i (Nat.zero_le lmax)
    (by omega) (by omega)
  unfold Alm.getlm
  rw [h0] at this
  simpa using this

/-- Indices past the `m = 0` block decode to strictly positive `m`. -/
theorem Alm.getlm_m_pos (lmax i : ℕ) (h1 : lmax + 1 ≤ i)
    (h2 : i < Alm.getsize lmax) : 1 ≤ (Alm.getlm lmax i).2 := by
  obtain ⟨hml, hllmax, hidx⟩ := Alm.getlm_spec lmax i h2
  by_contra hc
  have hm0 : (Alm.getlm lmax i).2 = 0 := by omega
  rw [hm0, Alm.getidx_m_zero] at hidx
  omega

/-! ### Clebsch-Gordan symmetry lemmas -/

theorem cgSummand_reflect (j1 m1 j2 m2 J : ℤ) (h : 0 ≤ j1 + j2 - J) (k : ℕ)
    (hk : k ≤ (j1 + j2 - J).toNat) :
    cgSummand j1 m1 j2 m2 J k =
      (-1 : ℝ) ^ (j1 + j2 - J).toNat *
        cgSummand j2 m2 j1 m1 J ((j1 + j2 - J).toNat - k) := by
  have hNZ : (((j1 + j2 - J).toNat : ℕ) : ℤ) = j1 + j2 - J :=
    Int.toNat_of_nonneg h
  have hcast : ((((j1 + j2 - J).toNat - k : ℕ)) : ℤ) = j1 + j2 - J - k := by
    omega
  unfold cgSummand
  rw [hcast]
  have e1 : j2 + j1 - J - (j1 + j2 - J - (k : ℤ)) = (k : ℤ) := by ring
  have e2 : j2 - m2 - (j1 + j2 - J - (k : ℤ)) = J - j1 - m2 + k := by ring
  have e3 : j1 + m1 - (j1 + j2 - J - (k : ℤ)) = J - j2 + m1 + k := by ring
  have e4 : J - j1 + m2 + (j1 + j2 - J - (k : ℤ)) = j2 + m2 - k := by ring
  have e5 : J - j2 - m1 + (j1 + j2 - J - (k : ℤ)) = j1 - m1 - k := by ring
  rw [e1, e2, e3, e4, e5]
  have hs : (-1 : ℝ) ^ (j1 + j2 - J).toNat *
      (-1 : ℝ) ^ ((j1 + j2 - J).toNat - k) = (-1 : ℝ) ^ k := by
    rw [← pow_add,
      show (j1 + j2 - J).toNat + ((j1 + j2 - J).toNat - k) =
        2 * ((j1 + j2 - J).toNat - k) + k by omega,
      pow_add, pow_mul]
    norm_num
  rw [← hs]
  ring

theorem cgSum_swap (j1 m1 j2 m2 J : ℤ) (h : 0 ≤ j1 + j2 - J) :
    cgSum j1 m1 j2 m2 J =
      (-1 : ℝ) ^ (j1 + j2 - J).toNat * cgSum j2 m2 j1 m1 J := by
  unfold cgSum
  rw [show j2 + j1 - J = j1 + j2 - J by ring, Finset.mul_sum]
  rw [← Finset.sum_range_reflect
    (fun k => (-1 : ℝ) ^ (j1 + j2 - J).toNat * cgSummand j2 m2 j1 m1 J k)
    ((j1 + j2 - J).toNat + 1)]
  refine Finset.sum_congr rfl fun k hk => ?_
  have hk' : k ≤ (j1 + j2 - J).toNat := by
    simpa using Nat.lt_succ_iff.mp (Finset.mem_range.mp hk)
  rw [show (j1 + j2 - J).toNat + 1 - 1 - k = (j1 + j2 - J).toNat - k by omega]
  exact cgSummand_reflect j1 m1 j2 m2 J h k hk'

theorem cgSummand_negm (j1 m1 j2 m2 J : ℤ) (k : ℕ) :
    cgSummand j1 (-m1) j2 (-m2) J k = cgSummand j2 m2 j1 m1 J k := by
  unfold cgSummand
  rw [show j1 - -m1 - (k : ℤ) = j1 + m1 - k by ring,
      show j2 + -m2 - (k : ℤ) = j2 - m2 - k by ring,
      show J - j2 + -m1 + (k : ℤ) = J - j2 - m1 + k by ring,
      show J - j1 - -m2 + (k : ℤ) = J - j1 + m2 + k by ring,
      show j1 + j2 - J - (k : ℤ) = j2 + j1 - J - k by ring]
  ring

theorem cgNorm_swap (j1 m1 j2 m2 J M : ℤ) :
    cgNorm j2 m2 j1 m1 J M = cgNorm j1 m1 j2 m2 J M := by
  unfold cgNorm
  rw [show j2 + j1 - J = j1 + j2 - J by ring,
      show j2 - j1 + J = -j1 + j2 + J by ring,
      show -j2 + j1 + J = j1 - j2 + J by ring,
      show j2 + j1 + J + 1 = j1 + j2 + J + 1 by ring]
  congr 1
  ring

theorem cg_swap (j1 m1 j2 m2 J M : ℤ) :
    cg j2 m2 j1 m1 J M = (-1 : ℝ) ^ (j1 + j2 - J).toNat * cg j1 m1 j2 m2 J M := by
  unfold cg
  by_cases hg : M = m1 + m2 ∧ |j1 - j2| ≤ J ∧ J ≤ j1 + j2 ∧ |m1| ≤ j1 ∧
      |m2| ≤ j2 ∧ |M| ≤ J
  · obtain ⟨h1, h2, h3, h4, h5, h6⟩ := hg
    have hg2 : M = m2 + m1 ∧ |j2 - j1| ≤ J ∧ J ≤ j2 + j1 ∧ |m2| ≤ j2 ∧
        |m1| ≤ j1 ∧ |M| ≤ J := by
      refine ⟨by omega, ?_, by omega, h5, h4, h6⟩
      rw [abs_sub_comm]; exact h2
    rw [if_pos hg2, if_pos ⟨h1, h2, h3, h4, h5, h6⟩]
    have hnn : 0 ≤ j1 + j2 - J := by omega
    have hsum := cgSum_swap j1 m1 j2 m2 J hnn
    have hsq : (-1 : ℝ) ^ (j1 + j2 - J).toNat *
        (-1 : ℝ) ^ (j1 + j2 - J).toNat = 1 := by
      rw [← pow_add, show (j1 + j2 - J).toNat + (j1 + j2 - J).toNat =
        2 * (j1 + j2 - J).toNat by omega, pow_mul]
      norm_num
    have h7 : cgSum j2 m2 j1 m1 J =
        (-1 : ℝ) ^ (j1 + j2 - J).toNat * cgSum j1 m1 j2 m2 J := by
      rw [hsum, ← mul_assoc, hsq, one_mul]
    rw [cgNorm_swap, h7]
    ring
  · have hg2 : ¬(M = m2 + m1 ∧ |j2 - j1| ≤ J ∧ J ≤ j2 + j1 ∧ |m2| ≤ j2 ∧
        |m1| ≤ j1 ∧ |M| ≤ J) := by
      intro h
      obtain ⟨h1, h2, h3, h4, h5, h6⟩ := h
      refine hg ⟨by omega, ?_, by omega, h5, h4, h6⟩
      rw [abs_sub_comm]; exact h2
    rw [if_neg hg2, if_neg hg, mul_zero]

theorem cg_negm (j1 m1 j2 m2 J M : ℤ) :
    cg j1 (-m1) j2 (-m2) J (-M) =
      (-1 : ℝ) ^ (j1 + j2 - J).toNat * cg j1 m1 j2 m2 J M := by
  unfold cg
  by_cases hg : M = m1 + m2 ∧ |j1 - j2| ≤ J ∧ J ≤ j1 + j2 ∧ |m1| ≤ j1 ∧
      |m2| ≤ j2 ∧ |M| ≤ J
  · obtain ⟨h1, h2, h3, h4, h5, h6⟩ := hg
    have hg2 : -M = -m1 + -m2 ∧ |j1 - j2| ≤ J ∧ J ≤ j1 + j2 ∧ |(-m1)| ≤ j1 ∧
        |(-m2)| ≤ j2 ∧ |(-M)| ≤ J := by
      refine ⟨by omega, h2, h3, ?_, ?_, ?_⟩ <;> rw [abs_neg] <;> assumption
    rw [if_pos hg2, if_pos ⟨h1, h2, h3, h4, h5, h6⟩]
    have hnn : 0 ≤ j1 + j2 - J := by omega
    have hnormeq : cgNorm j1 (-m1) j2 (-m2) J (-M) = cgNorm j1 m1 j2 m2 J M := by
      unfold cgNorm
      rw [show j1 + -m1 = j1 - m1 by ring, show j1 - -m1 = j1 + m1 by ring,
          show j2 + -m2 = j2 - m2 by ring, show j2 - -m2 = j2 + m2 by ring,
          show J + -M = J - M by ring, show J - -M = J + M by ring]
      congr 1
      ring
    have hsumeq : cgSum j1 (-m1) j2 (-m2) J = cgSum j2 m2 j1 m1 J := by
      unfold cgSum
      rw [show j2 + j1 - J = j1 + j2 - J by ring]
      exact Finset.sum_congr rfl fun k _ => cgSummand_negm j1 m1 j2 m2 J k
    have hsum := cgSum_swap j1 m1 j2 m2 J hnn
    have hsq : (-1 : ℝ) ^ (j1 + j2 - J).toNat *
        (-1 : ℝ) ^ (j1 + j2 - J).toNat = 1 := by
      rw [← pow_add, show (j1 + j2 - J).toNat + (j1 + j2 - J).toNat =
        2 * (j1 + j2 - J).toNat by omega, pow_mul]
      norm_num
    have h7 : cgSum j2 m2 j1 m1 J =
        (-1 : ℝ) ^ (j1 + j2 - J).toNat * cgSum j1 m1 j2 m2 J := by
      rw [hsum, ← mul_assoc, hsq, one_mul]
    rw [hnormeq, hsumeq, h7]
    ring
  · have hg2 : ¬(-M = -m1 + -m2 ∧ |j1 - j2| ≤ J ∧ J ≤ j1 + j2 ∧
        |(-m1)| ≤ j1 ∧ |(-m2)| ≤ j2 ∧ |(-M)| ≤ J) := by
      intro h
      obtain ⟨h1, h2, h3, h4, h5, h6⟩ := h
      rw [abs_neg] at h4 h5 h6
      exact hg ⟨by omega, h2, h3, h4, h5, h6⟩
    rw [if_neg hg2, if_neg hg, mul_zero]

/-- `CG(l1,0,l2,0,L,0) = 0` whenever `l1+l2+L` is odd. -/
theorem cg_zero_of_odd (l1 l2 L : ℤ) (h : (l1 + l2 + L) % 2 = 1) :
    cg l1 0 l2 0 L 0 = 0 := by
  by_cases hg : (0 : ℤ) = 0 + 0 ∧ |l1 - l2| ≤ L ∧ L ≤ l1 + l2 ∧
      |(0 : ℤ)| ≤ l1 ∧ |(0 : ℤ)| ≤ l2 ∧ |(0 : ℤ)| ≤ L
  · have h0 := cg_negm l1 0 l2 0 L 0
    simp only [neg_zero] at h0
    have hodd : (l1 + l2 - L).toNat % 2 = 1 := by omega
    have hneg1 : (-1 : ℝ) ^ (l1 + l2 - L).toNat = -1 :=
      Odd.neg_one_pow (Nat.odd_iff.mpr hodd)
    rw [hneg1] at h0
    linarith
  · unfold cg
    rw [if_neg hg]

/-- `CG = 0` when the guard (triangle inequality, `M = m1+m2`, `|m| ≤ j`)
fails. -/
theorem cg_zero_of_not_allowed (j1 m1 j2 m2 J M : ℤ)
    (h : ¬(M = m1 + m2 ∧ |j1 - j2| ≤ J ∧ J ≤ j1 + j2 ∧ |m1| ≤ j1 ∧
      |m2| ≤ j2 ∧ |M| ≤ J)) : cg j1 m1 j2 m2 J M = 0 := by
  unfold cg
  rw [if_neg h]

/-! ### `idx_2_alm` domain lemmas -/

theorem except_isOk_exists {e : Except String (ℕ × ℤ)} (h : e.isOk = true) :
    ∃ l m, e = .ok (l, m) := by
  rcases e with s | ⟨l, m⟩
  · simp [Except.isOk, Except.toBool] at h
  · exact ⟨l, m, rfl⟩

theorem idx_2_alm_isOk (lmax ii : ℕ)
    (h : ii < 2 * Alm.getsize lmax - lmax - 1) :
    (idx_2_alm lmax ii).isOk = true := by
  unfold idx_2_alm
  rw [if_neg (by omega)]
  by_cases h2 : ii < Alm.getsize lmax
  · rw [if_pos h2]; rfl
  · have hsz := Alm.getsize_ge lmax
    have hj1 : lmax + 1 ≤ ii - Alm.getsize lmax + lmax + 1 := by omega
    have hj2 : ii - Alm.getsize lmax + lmax + 1 < Alm.getsize lmax := by omega
    have hmp := Alm.getlm_m_pos lmax _ hj1 hj2
    rw [if_neg h2, if_neg (by omega)]
    rfl

theorem idx_2_alm_error (lmax ii : ℕ)
    (h : 2 * Alm.getsize lmax - lmax - 1 ≤ ii) :
    idx_2_alm lmax ii = .error "Index larger than acceptable" := by
  unfold idx_2_alm
  rw [if_pos h]

theorem idx_2_alm_neg_region (lmax ii : ℕ) (h1 : Alm.getsize lmax ≤ ii)
    (h2 : ii < 2 * Alm.getsize lmax - lmax - 1) :
    ∃ l m, idx_2_alm lmax ii = .ok (l, m) ∧ m < 0 := by
  have hsz := Alm.getsize_ge lmax
  have hj1 : lmax + 1 ≤ ii - Alm.getsize lmax + lmax + 1 := by omega
  have hj2 : ii - Alm.getsize lmax + lmax + 1 < Alm.getsize lmax := by omega
  have hmp := Alm.getlm_m_pos lmax _ hj1 hj2
  refine ⟨(Alm.getlm lmax (ii - Alm.getsize lmax + lmax + 1)).1,
    -((Alm.getlm lmax (ii - Alm.getsize lmax + lmax + 1)).2 : ℤ), ?_, by omega⟩
  unfold idx_2_alm
  rw [if_neg (by omega), if_neg (by omega), if_neg (by omega)]

/-! ### `calc_beta` lemmas -/

/-- `beta_val` with all three decodes rewritten to their `ok` values. -/
theorem beta_val_of_decodes (blmax ii jj kk : ℕ) (l1 l2 L : ℕ) (m1 m2 M : ℤ)
    (h1 : idx_2_alm blmax jj = .ok (l1, m1))
    (h2 : idx_2_alm blmax kk = .ok (l2, m2))
    (h3 : idx_2_alm (2 * blmax) ii = .ok (L, M)) :
    beta_val blmax ii jj kk =
      Real.sqrt ((2 * (l1 : ℝ) + 1) * (2 * (l2 : ℝ) + 1) /
          ((4 * Real.pi) * (2 * (L : ℝ) + 1))) *
        cg (l1 : ℤ) 0 (l2 : ℤ) 0 (L : ℤ) 0 *
        cg (l1 : ℤ) m1 (l2 : ℤ) m2 (L : ℤ) M := by
  unfold beta_val
  rw [h1, h2, h3]

/-- Unconditional symmetry of `beta_val` in its last two index arguments. -/
theorem beta_val_symm_aux (blmax ii jj kk : ℕ) :
    beta_val blmax ii jj kk = beta_val blmax ii kk jj := by
  have key : ∀ A c0 c1 s : ℝ, s * s = 1 →
      A * c0 * c1 = A * (s * c0) * (s * c1) := by
    intro A c0 c1 s hs
    have h : A * (s * c0) * (s * c1) = s * s * (A * c0 * c1) := by ring
    rw [h, hs, one_mul]
  rcases h1 : idx_2_alm blmax jj with s1 | ⟨l1, m1⟩ <;>
    rcases h2 : idx_2_alm blmax kk with s2 | ⟨l2, m2⟩ <;>
      rcases h3 : idx_2_alm (2 * blmax) ii with s3 | ⟨L, M⟩ <;>
        simp only [beta_val, h1, h2, h3]
  rw [cg_swap (l1 : ℤ) 0 (l2 : ℤ) 0 (L : ℤ) 0,
      cg_swap (l1 : ℤ) m1 (l2 : ℤ) m2 (L : ℤ) M,
      show (2 * (l2 : ℝ) + 1) * (2 * (l1 : ℝ) + 1) /
          ((4 * Real.pi) * (2 * (L : ℝ) + 1)) =
        (2 * (l1 : ℝ) + 1) * (2 * (l2 : ℝ) + 1) /
          ((4 * Real.pi) * (2 * (L : ℝ) + 1)) by ring]
  have hsq : (-1 : ℝ) ^ (((l1 : ℤ) + (l2 : ℤ) - (L : ℤ)).toNat) *
      (-1 : ℝ) ^ (((l1 : ℤ) + (l2 : ℤ) - (L : ℤ)).toNat) = 1 := by
    rw [← pow_add, show ((l1 : ℤ) + (l2 : ℤ) - (L : ℤ)).toNat +
        ((l1 : ℤ) + (l2 : ℤ) - (L : ℤ)).toNat =
      2 * ((l1 : ℤ) + (l2 : ℤ) - (L : ℤ)).toNat by omega, pow_mul]
    norm_num
  exact key _ _ _ _ hsq

/-! ### Coefficient expansion lemmas -/

theorem calc_blm_full_length (blmax : ℕ) (blms_in : List ℂ) :
    (calc_blm_full blmax blms_in).length = 2 * Alm.getsize blmax - blmax - 1 := by
  unfold calc_blm_full
  rw [List.length_map, List.length_range]

theorem calc_blm_full_entry (blmax : ℕ) (blms_in : List ℂ) (jj l : ℕ) (m : ℤ)
    (h : idx_2_alm blmax jj = .ok (l, m)) :
    (calc_blm_full blmax blms_in).getD jj 0 =
      if 0 ≤ m then blms_in.getD (Alm.getidx blmax l m.toNat) 0
      else (-1 : ℂ) ^ (-m).toNat *
        (starRingEnd ℂ) (blms_in.getD (Alm.getidx blmax l (-m).toNat) 0) := by
  have hjj : jj < 2 * Alm.getsize blmax - blmax - 1 := by
    by_contra hc
    rw [idx_2_alm_error blmax jj (by omega)] at h
    exact Except.noConfusion h
  unfold calc_blm_full
  rw [List.getD_eq_getElem?_getD, List.getElem?_map, List.getElem?_range hjj]
  simp only [Option.map_some', Option.getD_some]
  rw [h]

theorem blm_2_alm_isOk_iff (blmax : ℕ) (blms_in : List ℂ) :
    (blm_2_alm blmax blms_in).isOk = false ↔
      blms_in.length ≠ Alm.getsize blmax := by
  unfold blm_2_alm
  by_cases h : blms_in.length ≠ Alm.getsize blmax
  · rw [if_pos h]
    simpa [Except.isOk, Except.toBool] using h
  · rw [if_neg h]
    simpa [Except.isOk, Except.toBool] using h

/-! ### Monopole pipeline evaluation -/

theorem cg_monopole : cg 0 0 0 0 0 0 = 1 := by
  have hnorm : cgNorm 0 0 0 0 0 0 = 1 := by
    unfold cgNorm facZ
    norm_num
  have hsum : cgSum 0 0 0 0 0 = 1 := by
    unfold cgSum cgSummand invFact
    norm_num
  unfold cg
  rw [if_pos (by norm_num), hnorm, hsum, mul_one]

theorem beta_val_monopole : beta_val 0 0 0 0 = Real.sqrt (1 / (4 * Real.pi)) := by
  have hdec : idx_2_alm 0 0 = .ok (0, 0) := rfl
  have hdec2 : idx_2_alm (2 * 0) 0 = .ok (0, 0) := rfl
  rw [beta_val_of_decodes 0 0 0 0 0 0 0 0 0 0 hdec hdec hdec2]
  simp only [Nat.cast_zero]
  rw [cg_monopole]
  norm_num

theorem calc_blm_full_monopole (b : ℂ) : calc_blm_full 0 [b] = [b] := by
  unfold calc_blm_full
  rw [show 2 * Alm.getsize 0 - 0 - 1 = 1 from rfl,
    show List.range 1 = [0] from rfl, List.map_cons, List.map_nil]
  congr 1

theorem alms_of_monopole (b : ℂ) :
    alms_of 0 [b] 0 = ((Real.sqrt (1 / (4 * Real.pi)) : ℝ) : ℂ) * b * b := by
  unfold alms_of
  rw [show 2 * Alm.getsize 0 - 0 - 1 = 1 from rfl, Finset.sum_range_one,
    Finset.sum_range_one, calc_blm_full_monopole, beta_val_monopole]
  rfl

theorem blm_2_alm_monopole (b : ℂ) :
    blm_2_alm 0 [b] = .ok [alms_of 0 [b] 0] := by
  unfold blm_2_alm
  rw [if_neg (by simp [Alm.getsize])]
  rw [show (2 * 0 + 1) ^ 2 = 1 by norm_num,
    show List.range 1 = [0] from rfl, List.map_cons, List.map_nil]

theorem skymap_monopole_val (b : ℂ) (hb : b ≠ 0) (p : ℕ) :
    skymap_monopole b p = ((1 / (4 * Real.pi) : ℝ) : ℂ) := by
  have hCpos : (0 : ℝ) < 1 / (4 * Real.pi) := by positivity
  have hC : ((Real.sqrt (1 / (4 * Real.pi)) : ℝ) : ℂ) ≠ 0 := by
    simp only [ne_eq, Complex.ofReal_eq_zero]
    exact (Real.sqrt_ne_zero'.mpr hCpos)
  have ha : ((Real.sqrt (1 / (4 * Real.pi)) : ℝ) : ℂ) * b * b ≠ 0 :=
    mul_ne_zero (mul_ne_zero hC hb) hb
  unfold skymap_monopole
  simp only [blm_2_alm_monopole, List.getD_cons_zero, alms_of_monopole]
  unfold alm2map_monopole
  rw [div_mul_eq_div_div, div_self ha]
  have hresq : Real.sqrt (4 * Real.pi) = 2 * Real.sqrt Real.pi := by
    rw [show (4 : ℝ) * Real.pi = 2 ^ 2 * Real.pi by norm_num,
      Real.sqrt_mul (by norm_num), Real.sqrt_sq (by norm_num)]
  have hss : Real.sqrt Real.pi * Real.sqrt Real.pi = Real.pi :=
    Real.mul_self_sqrt Real.pi_pos.le
  rw [← Complex.ofReal_one, ← Complex.ofReal_div, ← Complex.ofReal_mul,
    Complex.ofReal_inj]
  rw [hresq, div_mul_div_comm, one_mul]
  congr 1
  linear_combination 4 * hss

/-! ### Response-tensor and signal lemmas -/

theorem TQ_ORF_conj (fr : ℕ → ℝ) (LT : ℝ) (Rp Rc : Fin 3 → ℕ → ℕ → ℕ → ℂ)
    (m n : Fin 3) (j k p : ℕ) :
    (starRingEnd ℂ) (TQ_ORF fr LT Rp Rc n m j k p) =
      TQ_ORF fr LT Rp Rc m n j k p := by
  simp only [TQ_ORF, map_div₀, map_add, map_mul, map_pow, Complex.conj_ofReal,
    Complex.conj_conj]
  ring

theorem signal_in_Gu_conj (Ttot : ℝ) (SgwGu : ℕ → ℂ) (sky : ℕ → ℝ) (f p : ℕ) :
    (starRingEnd ℂ) (signal_in_Gu Ttot SgwGu sky f p) =
      signal_in_Gu Ttot SgwGu sky f p := by
  simp only [signal_in_Gu, map_mul, Complex.conj_ofReal, Complex.conj_conj]
  ring

/-! ## Claim theorems -/

/-- C1: for every channel pair `(c1,c2)`, frequency index `f` and time index
`t`, `signal_SGWB[c1,c2,f,t] = (4π/npix) · Σ_{p<npix} (2/Ttot) · Sgw_Gu[f] ·
conj(Sgw_Gu[f]) · skymap[p] · TQ_ORF[c1,c2,f,t,p]`, where `Sgw_Gu` is the
seeded (seed 123) realization of the PSD `Sgw(f) = omega0·(f/fref)^alpha ·
(3/(4f³)) · (H0/π)²` on the `linspace(fmin, fmax, fn)` frequency grid. -/
theorem signal_SGWB_pixel_sum (npix : ℕ)
    (omega0 alpha fref H0 Ttot fmin fmax LT : ℝ) (fn : ℕ) (sky : ℕ → ℝ)
    (Rp Rc : Fin 3 → ℕ → ℕ → ℕ → ℂ) (m n : Fin 3) (f t : ℕ) :
    signal_SGWB npix Ttot (Sgw_Gu omega0 alpha fref H0 Ttot (frange fmin fmax fn))
        sky (frange fmin fmax fn) LT Rp Rc m n f t =
      ((4 * Real.pi : ℝ) : ℂ) / (npix : ℂ) *
        ∑ p ∈ Finset.range npix,
          ((2 / Ttot : ℝ) : ℂ) *
            Sgw_Gu omega0 alpha fref H0 Ttot (frange fmin fmax fn) f *
            (starRingEnd ℂ)
              (Sgw_Gu omega0 alpha fref H0 Ttot (frange fmin fmax fn) f) *
            ((sky p : ℝ) : ℂ) *
            TQ_ORF (frange fmin fmax fn) LT Rp Rc m n f t p := by
  unfold signal_SGWB signal_in_Gu
  ring

/-- C2: for every `blmax` and all valid indices (`ii` over the
`(2*blmax+1)^2` power indices, `jj`, `kk` over the expanded coefficient
range), the coupling tensor satisfies `beta[ii,jj,kk] = beta[ii,kk,jj]`. -/
theorem calc_beta_symmetric (blmax ii jj kk : ℕ)
    (_hii : ii < (2 * blmax + 1) ^ 2)
    (_hjj : jj < 2 * Alm.getsize blmax - blmax - 1)
    (_hkk : kk < 2 * Alm.getsize blmax - blmax - 1) :
    beta_val blmax ii jj kk = beta_val blmax ii kk jj :=
  beta_val_symm_aux blmax ii jj kk

/-- C2 witness: the symmetry instantiated at `blmax = 1`, `ii = 0`, `jj = 1`,
`kk = 2`, with the index-range hypotheses checked by computation. -/
theorem calc_beta_symmetric_witness :
    (0 < (2 * 1 + 1) ^ 2 ∧ 1 < 2 * Alm.getsize 1 - 1 - 1 ∧
      2 < 2 * Alm.getsize 1 - 1 - 1) ∧
    beta_val 1 0 1 2 = beta_val 1 0 2 1 :=
  ⟨by decide, calc_beta_symmetric 1 0 1 2 (by decide) (by decide) (by decide)⟩

/-- C3: for every valid triple `(ii, jj, kk)`, the three decodes succeed (no
error is raised) and `beta[ii,jj,kk] = 0` whenever `L < |l1-l2|`, or
`L > l1+l2`, or `M ≠ m1+m2`, or `l1+l2+L` is odd. -/
theorem calc_beta_selection_rules (blmax ii jj kk : ℕ)
    (hii : ii < (2 * blmax + 1) ^ 2)
    (hjj : jj < 2 * Alm.getsize blmax - blmax - 1)
    (hkk : kk < 2 * Alm.getsize blmax - blmax - 1)
    (hviol : selectionViolated blmax ii jj kk = true) :
    (idx_2_alm (2 * blmax) ii).isOk = true ∧
    (idx_2_alm blmax jj).isOk = true ∧
    (idx_2_alm blmax kk).isOk = true ∧
    beta_val blmax ii jj kk = 0 := by
  have hii2 : ii < 2 * Alm.getsize (2 * blmax) - 2 * blmax - 1 := by
    rw [Alm.two_getsize_sub]; omega
  have okii := idx_2_alm_isOk (2 * blmax) ii hii2
  have okjj := idx_2_alm_isOk blmax jj hjj
  have okkk := idx_2_alm_isOk blmax kk hkk
  refine ⟨okii, okjj, okkk, ?_⟩
  obtain ⟨l1, m1, h1⟩ := except_isOk_exists okjj
  obtain ⟨l2, m2, h2⟩ := except_isOk_exists okkk
  obtain ⟨L, M, h3⟩ := except_isOk_exists okii
  rw [beta_val_of_decodes blmax ii jj kk l1 l2 L m1 m2 M h1 h2 h3]
  unfold selectionViolated at hviol
  rw [h1, h2, h3] at hviol
  simp only [Bool.or_eq_true, decide_eq_true_eq] at hviol
  rcases hviol with ((hA | hB) | hC) | hD
  · rw [cg_zero_of_not_allowed (l1 : ℤ) m1 (l2 : ℤ) m2 (L : ℤ) M
      (fun hg => absurd hg.2.1 (not_le.mpr hA))]
    ring
  · rw [cg_zero_of_not_allowed (l1 : ℤ) m1 (l2 : ℤ) m2 (L : ℤ) M
      (fun hg => absurd hg.2.2.1 (not_le.mpr hB))]
    ring
  · rw [cg_zero_of_not_allowed (l1 : ℤ) m1 (l2 : ℤ) m2 (L : ℤ) M
      (fun hg => hC hg.1)]
    ring
  · rw [cg_zero_of_odd (l1 : ℤ) (l2 : ℤ) (L : ℤ) (by omega)]
    ring

/-- C3 witness: at `blmax = 1`, `ii = 1` decodes to `(L,M) = (1,0)` and
`jj = kk = 0` to `(0,0)`, so `L > l1+l2` is violated; the decodes succeed and
the entry is `0`. -/
theorem calc_beta_selection_rules_witness :
    (1 < (2 * 1 + 1) ^ 2 ∧ 0 < 2 * Alm.getsize 1 - 1 - 1 ∧
      selectionViolated 1 1 0 0 = true) ∧
    ((idx_2_alm (2 * 1) 1).isOk = true ∧ (idx_2_alm 1 0).isOk = true ∧
      (idx_2_alm 1 0).isOk = true ∧ beta_val 1 1 0 0 = 0) :=
  ⟨by decide,
    calc_beta_selection_rules 1 1 0 0 (by decide) (by decide) (by decide)
      (by decide)⟩

/-- C4 counterexample: for `blmax = 0` with monopole amplitude `b = 1`, the
normalized sky map value is not `1`: dividing by `alms_inj[0]*sqrt(4π)` puts
the monopole at `1/sqrt(4π)`, so synthesis yields `1/(4π) ≈ 0.0796`, not 1. -/
theorem skymap_monopole_not_one : skymap_monopole 1 0 ≠ 1 := by
  rw [skymap_monopole_val 1 one_ne_zero 0]
  intro h
  rw [← Complex.ofReal_one, Complex.ofReal_inj] at h
  have hpi := Real.pi_gt_three
  rw [div_eq_one_iff_eq (by positivity)] at h
  linarith

/-- C4 (amended): for `blmax = 0` and a single nonzero monopole amplitude
`b`, after dividing `alms_inj` by `alms_inj[0]*sqrt(4π)` and applying the
inverse spherical-harmonic transform, the sky map is uniform and equal to
`1/(4π)` at every pixel (so it integrates to 1 over the sphere); the mean
intensity is `1/(4π)`, not 1. -/
theorem skymap_monopole_uniform (b : ℂ) (hb : b ≠ 0) (p : ℕ) :
    skymap_monopole b p = ((1 / (4 * Real.pi) : ℝ) : ℂ) :=
  skymap_monopole_val b hb p

/-- C4 witness: the amended claim instantiated at `b = 1`, pixel 0. -/
theorem skymap_monopole_uniform_witness :
    skymap_monopole 1 0 = ((1 / (4 * Real.pi) : ℝ) : ℂ) :=
  skymap_monopole_uniform 1 one_ne_zero 0

/-- C5: `blm_2_alm` raises its size error exactly when the input length
differs from `Alm.getsize blmax`; the expansion built by `calc_blm_full` has
length `2*getsize(blmax) - blmax - 1`, copies `blms_in` at the canonical
index for decoded `m ≥ 0`, and applies `(-1)^|m| * conj` at the canonical
index of `(l, |m|)` for decoded `m < 0`. -/
theorem blm_expansion (blmax : ℕ) (blms_in : List ℂ) :
    ((blm_2_alm blmax blms_in).isOk = false ↔
      blms_in.length ≠ Alm.getsize blmax) ∧
    (calc_blm_full blmax blms_in).length = 2 * Alm.getsize blmax - blmax - 1 ∧
    ∀ jj l m, idx_2_alm blmax jj = .ok (l, m) →
      (0 ≤ m → (calc_blm_full blmax blms_in).getD jj 0 =
        blms_in.getD (Alm.getidx blmax l m.toNat) 0) ∧
      (m < 0 → (calc_blm_full blmax blms_in).getD jj 0 =
        (-1 : ℂ) ^ (-m).toNat *
          (starRingEnd ℂ) (blms_in.getD (Alm.getidx blmax l (-m).toNat) 0)) := by
  refine ⟨blm_2_alm_isOk_iff blmax blms_in, calc_blm_full_length blmax blms_in,
    ?_⟩
  intro jj l m h
  rw [calc_blm_full_entry blmax blms_in jj l m h]
  constructor
  · intro hm; rw [if_pos hm]
  · intro hm; rw [if_neg (by omega)]

/-- C5 witness: at `blmax = 1` with input `[1, 2, I]`, index `3` decodes to
`(l, m) = (1, -1)` and the expanded entry is `(-1)^1 * conj` of the canonical
`(1, 1)` entry. -/
theorem blm_expansion_witness :
    (calc_blm_full 1 [1, 2, Complex.I]).getD 3 0 =
      (-1 : ℂ) ^ ((-(-1 : ℤ)).toNat) *
        (starRingEnd ℂ)
          ([1, 2, Complex.I].getD (Alm.getidx 1 1 ((-(-1 : ℤ)).toNat)) 0) :=
  ((blm_expansion 1 [1, 2, Complex.I]).2.2 3 1 (-1) rfl).2 (by decide)

/-- C6: for every frequency, time and pixel, the channel×channel slice of the
response tensor is Hermitian: `TQ_ORF[m,n,f,t,p] = conj(TQ_ORF[n,m,f,t,p])`,
for any response arrays `Rp`, `Rc` supplied by the transfer collaborators. -/
theorem TQ_ORF_hermitian (fr : ℕ → ℝ) (LT : ℝ)
    (Rp Rc : Fin 3 → ℕ → ℕ → ℕ → ℂ) (m n : Fin 3) (j k p : ℕ) :
    TQ_ORF fr LT Rp Rc m n j k p =
      (starRingEnd ℂ) (TQ_ORF fr LT Rp Rc n m j k p) :=
  (TQ_ORF_conj fr LT Rp Rc m n j k p).symm

/-- C7 counterexample: `polarization_tensor` of ORF.py does not satisfy
`e_p = v⊗v - u⊗u`: at `u = (1,0,0)`, `v = (0,1,0)` and component `(0,0)` it
returns `1` while `v⊗v - u⊗u` has `-1` there. -/
theorem polarization_tensor_sign_counterexample :
    (polarization_tensor (fun i => if i = 0 then (1 : ℝ) else 0)
        (fun i => if i = 1 then (1 : ℝ) else 0)).1 0 0 ≠
      (fun i : Fin 3 => if i = 1 then (1 : ℝ) else 0) 0 *
          (fun i : Fin 3 => if i = 1 then (1 : ℝ) else 0) 0 -
        (fun i : Fin 3 => if i = 0 then (1 : ℝ) else 0) 0 *
          (fun i : Fin 3 => if i = 0 then (1 : ℝ) else 0) 0 := by
  norm_num [polarization_tensor]

/-- C7 (amended): the `e_plus`/`e_cross` arrays of `SGWB.__init__` satisfy
`e_plus = v⊗v - u⊗u` and `e_cross = u⊗v + v⊗u` at every pixel, while
`polarization_tensor(u, v)` of ORF.py returns the sign-flipped
`e_p = u⊗u - v⊗v` together with `e_c = u⊗v + v⊗u`. -/
theorem polarization_tensor_forms :
    (∀ theta phi : ℝ, ∀ i j : Fin 3,
      e_plus theta phi i j =
        vec_v theta phi i * vec_v theta phi j - vec_u phi i * vec_u phi j) ∧
    (∀ theta phi : ℝ, ∀ i j : Fin 3,
      e_cross theta phi i j =
        vec_u phi i * vec_v theta phi j + vec_v theta phi i * vec_u phi j) ∧
    (∀ u v : Fin 3 → ℝ, ∀ i j : Fin 3,
      (polarization_tensor u v).1 i j = u i * u j - v i * v j) ∧
    (∀ u v : Fin 3 → ℝ, ∀ i j : Fin 3,
      (polarization_tensor u v).2 i j = u i * v j + v i * u j) :=
  ⟨fun _ _ _ _ => rfl, fun _ _ _ _ => rfl, fun _ _ _ _ => rfl,
    fun _ _ _ _ => rfl⟩

/-- C8: `idx_2_alm` errors exactly on `ii ≥ 2*getsize(lmax) - lmax - 1`, the
only error raised is the index-out-of-range one (the internal-consistency
branch is unreachable), and every in-range index at or above
`Alm.getsize lmax` decodes to a strictly negative `m`. -/
theorem idx_2_alm_domain (lmax ii : ℕ) :
    ((idx_2_alm lmax ii).isOk = false ↔
      2 * Alm.getsize lmax - lmax - 1 ≤ ii) ∧
    (∀ s, idx_2_alm lmax ii = .error s → s = "Index larger than acceptable") ∧
    (Alm.getsize lmax ≤ ii → ii < 2 * Alm.getsize lmax - lmax - 1 →
      ∃ l m, idx_2_alm lmax ii = .ok (l, m) ∧ m < 0) := by
  refine ⟨⟨?_, ?_⟩, ?_, fun h1 h2 => idx_2_alm_neg_region lmax ii h1 h2⟩
  · intro h
    by_contra hc
    rw [idx_2_alm_isOk lmax ii (by omega)] at h
    exact Bool.noConfusion h
  · intro h
    rw [idx_2_alm_error lmax ii h]
    rfl
  · intro s hs
    by_cases h : 2 * Alm.getsize lmax - lmax - 1 ≤ ii
    · rw [idx_2_alm_error lmax ii h] at hs
      injection hs with h'
      exact h'.symm
    · have hok := idx_2_alm_isOk lmax ii (by omega)
      rw [hs] at hok
      simp [Except.isOk, Except.toBool] at hok

/-- C8 witness: at `lmax = 1`, index 3 (the first negative-`m` index) is
in range, decodes without error, and yields `m < 0`. -/
theorem idx_2_alm_domain_witness :
    ((idx_2_alm 1 3).isOk = false ↔ 2 * Alm.getsize 1 - 1 - 1 ≤ 3) ∧
    (∃ l m, idx_2_alm 1 3 = .ok (l, m) ∧ m < 0) :=
  ⟨(idx_2_alm_domain 1 3).1, (idx_2_alm_domain 1 3).2.2 (by decide) (by decide)⟩

/-- C9: (spec-modelled) the stochastic spectrum generation is deterministic:
with the same PSD array, the same frequency step and the same fixed seed 123,
`frequency_noise_from_psd` returns identical outputs, and two `SGWB`
constructions with identical configuration produce identical `signal_in_Gu`
arrays. -/
theorem sgwb_deterministic (psd1 psd2 : ℕ → ℝ) (df1 df2 : ℝ)
    (hpsd : ∀ i, psd1 i = psd2 i) (hdf : df1 = df2) :
    (∀ i, frequency_noise_from_psd psd1 df1 123 i =
      frequency_noise_from_psd psd2 df2 123 i) ∧
    ∀ (Ttot : ℝ) (sky : ℕ → ℝ) (f p : ℕ),
      signal_in_Gu Ttot (frequency_noise_from_psd psd1 df1 123) sky f p =
        signal_in_Gu Ttot (frequency_noise_from_psd psd2 df2 123) sky f p := by
  have hfun : psd1 = psd2 := funext hpsd
  subst hfun
  subst hdf
  exact ⟨fun _ => rfl, fun _ _ _ _ => rfl⟩

/-- C9 witness: the determinism theorem applied at a concrete PSD and step. -/
theorem sgwb_deterministic_witness :
    frequency_noise_from_psd (fun _ => 1) 1 123 0 =
      frequency_noise_from_psd (fun _ => 1) 1 123 0 :=
  (sgwb_deterministic (fun _ => 1) (fun _ => 1) 1 1 (fun _ => rfl) rfl).1 0

/-- C10: for every frequency and time index the final `signal_SGWB` slice is
Hermitian in the channel pair: the per-pixel weight
`(2/Ttot)*Sgw_Gu[f]*conj(Sgw_Gu[f])*skymap[p]` is conjugation-invariant, so
the weighted pixel sum of the Hermitian `TQ_ORF` slices is Hermitian. -/
theorem signal_SGWB_hermitian (npix : ℕ) (Ttot : ℝ) (SgwGu : ℕ → ℂ)
    (sky : ℕ → ℝ) (fr : ℕ → ℝ) (LT : ℝ) (Rp Rc : Fin 3 → ℕ → ℕ → ℕ → ℂ)
    (m n : Fin 3) (f t : ℕ) :
    signal_SGWB npix Ttot SgwGu sky fr LT Rp Rc m n f t =
      (starRingEnd ℂ) (signal_SGWB npix Ttot SgwGu sky fr LT Rp Rc n m f t) := by
  unfold signal_SGWB
  rw [map_div₀, map_mul, Complex.conj_ofReal, map_natCast, map_sum]
  congr 2
  refine Finset.sum_congr rfl fun p _ => ?_
  rw [map_mul, signal_in_Gu_conj, TQ_ORF_conj]
